import Mathlib

/-!
# Verification of the metabengine feature-detection / alignment / grouping core

A shallow embedding of the metabengine processing core (Trace Builder,
Trace Refiner, Cross-Sample Aligner, Relationship Grapher).  The Python
package sources for the core are not part of this checkout (only the
example notebook and packaging metadata are), so the component
definitions below are modelled from the specification document of the
repository; each such definition carries a doc comment beginning
`Modelled from the spec:`.  Numeric quantities (m/z, retention time,
intensity) are embedded as rationals.
-/

namespace Metabengine

/-- A single (m/z, intensity) centroid of one scan. -/
structure Centroid where
  mz : ℚ
  intensity : ℚ
deriving DecidableEq, Inhabited

/-- One MS1 scan: a retention time and a list of centroids. -/
structure Scan where
  rt : ℚ
  centroids : List Centroid
deriving DecidableEq, Inhabited

/-- One point of an ion trace: the scan it came from, that scan's
retention time, and the centroid's m/z and intensity. -/
structure RoiPoint where
  scan_index : ℕ
  rt : ℚ
  mz : ℚ
  intensity : ℚ
deriving DecidableEq, Inhabited

/-- Maximum of a list of rationals (0 for the empty list). -/
def qmax : List ℚ → ℚ
  | [] => 0
  | [x] => x
  | x :: y :: xs => max x (qmax (y :: xs))

/-- Sum of a list of rationals. -/
def qsum (l : List ℚ) : ℚ := l.foldr (· + ·) 0

/-- Intensity-weighted mean of the m/z values of a list of points
(0 if the total intensity is 0). -/
def wmeanMz (pts : List RoiPoint) : ℚ :=
  let w := qsum (pts.map RoiPoint.intensity)
  if w = 0 then 0 else qsum (pts.map fun p => p.mz * p.intensity) / w

/-- Maximum intensity over a list of points. -/
def maxIntensity (pts : List RoiPoint) : ℚ := qmax (pts.map RoiPoint.intensity)

/-- The first point of maximal intensity (the apex). -/
def apexPoint (pts : List RoiPoint) : RoiPoint :=
  (pts.find? fun p => decide (p.intensity = maxIntensity pts)).getD default

/-- Trapezoidal integral of intensity over retention time. -/
def trapArea : List RoiPoint → ℚ
  | [] => 0
  | [_] => 0
  | a :: b :: rest => (b.rt - a.rt) * (a.intensity + b.intensity) / 2 + trapArea (b :: rest)

/-- Modelled from the spec: a ROI (ion trace) record; the Python class
itself is not in this checkout.  Attributes per the data model: an
ordered list of points, mz_center, rt_start/rt_apex/rt_end, height,
area, an optional quality score and whether an MS2 spectrum is
attached. -/
structure ROI where
  points : List RoiPoint
  mz_center : ℚ
  rt_start : ℚ
  rt_end : ℚ
  rt_apex : ℚ
  height : ℚ
  area : ℚ
  has_ms2 : Bool
  quality_score : Option ℚ
deriving DecidableEq, Inhabited

/-- Number of points of a ROI. -/
def ROI.length (r : ROI) : ℕ := r.points.length

/-- Modelled from the spec: an open (still growing) ion trace of the
Trace Builder.  `mz_center` is recomputed from the points as the
running intensity-weighted mean. -/
structure OpenTrace where
  points : List RoiPoint
  gap_counter : ℕ
deriving DecidableEq, Inhabited

/-- Current m/z center of an open trace (running intensity-weighted mean). -/
def OpenTrace.mzCenter (tr : OpenTrace) : ℚ := wmeanMz tr.points

/-- Modelled from the spec: Trace Builder configuration
{mz_tolerance_ms1, intensity_threshold, max_gap_scans}. -/
structure BuilderConfig where
  mz_tolerance_ms1 : ℚ
  intensity_threshold : ℚ
  max_gap_scans : ℕ
deriving DecidableEq, Inhabited

/-- Modelled from the spec: closing an open trace freezes its
attributes into a ROI: rt_start is the first point's rt, rt_end the
last point's rt, rt_apex the rt of the maximal-intensity point, height
the maximal intensity, area the trapezoidal integral.  The builder
attaches no MS2 spectrum and no quality score. -/
def closeTrace (tr : OpenTrace) : ROI :=
  { points := tr.points
    mz_center := wmeanMz tr.points
    rt_start := ((tr.points.head?).getD default).rt
    rt_end := ((tr.points.getLast?).getD default).rt
    rt_apex := (apexPoint tr.points).rt
    height := maxIntensity tr.points
    area := trapArea tr.points
    has_ms2 := false
    quality_score := none }

/-- Absolute distance between a centroid's m/z and a trace's center. -/
def cDist (c : Centroid) (tr : OpenTrace) : ℚ := |c.mz - tr.mzCenter|

/-- Fold selecting the element minimising `f` (first wins on ties),
starting from an optional current best. -/
def pickClosest (f : α → ℚ) (l : List α) (acc : Option α) : Option α :=
  l.foldl (fun best p =>
    match best with
    | none => some p
    | some q => if f p < f q then some p else some q) acc

/-- All within-tolerance (centroid, index, trace) pairs, centroids
outermost. -/
def bestPairCands (tol : ℚ) (cs : List Centroid) (ts : List (ℕ × OpenTrace)) :
    List (Centroid × ℕ × OpenTrace) :=
  cs.flatMap fun c => ts.filterMap fun it =>
    if cDist c it.2 ≤ tol then some (c, it.1, it.2) else none

/-- The best (closest) centroid/trace pair within tolerance; the first
pair attaining the minimal distance wins. -/
def bestPair (tol : ℚ) (cs : List Centroid) (ts : List (ℕ × OpenTrace)) :
    Option (Centroid × ℕ × OpenTrace) :=
  pickClosest (fun p => cDist p.1 p.2.2) (bestPairCands tol cs ts) none

/-- Modelled from the spec: greedy matching of a scan's eligible
centroids to the open traces — repeatedly assign the globally closest
within-tolerance (centroid, trace) pair and remove both ("the closer
one wins; the loser attempts to match a different open trace").
Returns the assignment as (trace index, centroid) pairs.  Fuel-driven;
fuel ≥ number of centroids suffices. -/
def greedyMatch (tol : ℚ) : ℕ → List Centroid → List (ℕ × OpenTrace) → List (ℕ × Centroid)
  | 0, _, _ => []
  | fuel + 1, cs, ts =>
    match bestPair tol cs ts with
    | none => []
    | some (c, i, _) => (i, c) :: greedyMatch tol fuel (cs.erase c) (ts.filter fun it => ¬ it.1 = i)

/-- Centroids of a scan passing the intensity threshold. -/
def scanEligible (cfg : BuilderConfig) (scan : Scan) : List Centroid :=
  scan.centroids.filter fun c => cfg.intensity_threshold ≤ c.intensity

/-- The assignment (trace index ↦ centroid) computed for one scan. -/
def scanAssign (cfg : BuilderConfig) (opens : List OpenTrace) (scan : Scan) :
    List (ℕ × Centroid) :=
  greedyMatch cfg.mz_tolerance_ms1 (scanEligible cfg scan).length
    (scanEligible cfg scan) opens.enum

/-- Extend a trace with a new point and reset its gap counter. -/
def extendTrace (tr : OpenTrace) (idx : ℕ) (rt : ℚ) (c : Centroid) : OpenTrace :=
  { points := tr.points ++ [⟨idx, rt, c.mz, c.intensity⟩], gap_counter := 0 }

/-- A fresh one-point trace opened by an unmatched centroid. -/
def initTrace (idx : ℕ) (rt : ℚ) (c : Centroid) : OpenTrace :=
  { points := [⟨idx, rt, c.mz, c.intensity⟩], gap_counter := 0 }

/-- Update one open trace for the current scan: extend it if the
assignment matched it, otherwise increment its gap counter. -/
def stepTrace (cfg : BuilderConfig) (opens : List OpenTrace) (scan : Scan) (idx : ℕ)
    (k : ℕ) (tr : OpenTrace) : OpenTrace :=
  match (scanAssign cfg opens scan).lookup k with
  | some c => extendTrace tr idx scan.rt c
  | none => { tr with gap_counter := tr.gap_counter + 1 }

/-- All open traces after applying one scan's assignment. -/
def updatedOpens (cfg : BuilderConfig) (opens : List OpenTrace) (scan : Scan) (idx : ℕ) :
    List OpenTrace :=
  opens.enum.map fun p => stepTrace cfg opens scan idx p.1 p.2

/-- Traces newly opened by this scan's unmatched eligible centroids. -/
def newOpens (cfg : BuilderConfig) (opens : List OpenTrace) (scan : Scan) (idx : ℕ) :
    List OpenTrace :=
  ((scanEligible cfg scan).diff ((scanAssign cfg opens scan).map Prod.snd)).map
    (initTrace idx scan.rt)

/-- State of the Trace Builder: the open traces and the finished ROIs. -/
structure BuilderState where
  opens : List OpenTrace
  finished : List ROI
deriving DecidableEq, Inhabited

/-- Modelled from the spec: processing of one scan by the Trace
Builder.  Eligible centroids extend their matched traces (gap reset to
0); unmatched open traces increment their gap counter; any trace whose
gap counter exceeds max_gap_scans is closed and moved to the finished
set; unmatched centroids open new traces. -/
def processScan (cfg : BuilderConfig) (st : BuilderState) (idx : ℕ) (scan : Scan) :
    BuilderState :=
  let upd := updatedOpens cfg st.opens scan idx
  { opens := (upd.filter fun tr => tr.gap_counter ≤ cfg.max_gap_scans)
      ++ newOpens cfg st.opens scan idx
    finished := st.finished
      ++ ((upd.filter fun tr => cfg.max_gap_scans < tr.gap_counter).map closeTrace) }

/-- The Trace Builder's scan loop, carrying the scan index. -/
def buildLoop (cfg : BuilderConfig) : List Scan → BuilderState → ℕ → BuilderState
  | [], st, _ => st
  | scan :: rest, st, idx => buildLoop cfg rest (processScan cfg st idx scan) (idx + 1)

/-- Modelled from the spec: the Trace Builder.  One pass over the
scans; at the end of the Scan Source all remaining open traces are
closed. -/
def buildTraces (cfg : BuilderConfig) (scans : List Scan) : List ROI :=
  let final := buildLoop cfg scans ⟨[], []⟩ 0
  final.finished ++ final.opens.map closeTrace

/-! ## Trace Refiner -/

/-- Modelled from the spec: Trace Refiner configuration
{min_points, cut_long_traces}. -/
structure RefinerConfig where
  min_points : ℕ
  cut_long_traces : Bool
deriving DecidableEq, Inhabited

/-- A ROI built from a list of points with all derived attributes
recomputed; used for the pieces of a split ROI. -/
def mkROI (pts : List RoiPoint) (ms2 : Bool) : ROI :=
  { closeTrace ⟨pts, 0⟩ with has_ms2 := ms2 }

/-- Keep a ROI iff its length reaches min_points or it carries an MS2
spectrum. -/
def keepROI (cfg : RefinerConfig) (r : ROI) : Bool :=
  decide (cfg.min_points ≤ r.points.length) || r.has_ms2

/-- Modelled from the spec: the Refiner's discard stage — ROIs with
length < min_points AND no attached MS2 spectrum are discarded. -/
def discardShortStage (cfg : RefinerConfig) (rois : List ROI) : List ROI :=
  rois.filter (keepROI cfg)

/-- Modelled from the spec: malformed (zero-point) ROIs are dropped. -/
def dropMalformed (rois : List ROI) : List ROI :=
  rois.filter fun r => !r.points.isEmpty

/-- The first index at which a multi-apex ROI may be split: a local
minimum (neighbours at least as intense) whose intensity is below half
of the maximal intensity both strictly before and strictly after it. -/
def splitIndex (pts : List RoiPoint) : Option ℕ :=
  (List.range pts.length).find? fun m =>
    decide (0 < m) && decide (m + 1 < pts.length) &&
    (let v := ((pts.get? m).getD default).intensity
     decide (((pts.get? (m - 1)).getD default).intensity ≥ v) &&
     decide (((pts.get? (m + 1)).getD default).intensity ≥ v) &&
     decide (2 * v < maxIntensity (pts.take m)) &&
     decide (2 * v < maxIntensity (pts.drop (m + 1))))

/-- Modelled from the spec: repeatedly split a point list at
qualifying minima; each segment keeps its own point range.  The
splitting point itself stays with the left segment so that the
segments partition the points.  Fuel ≥ number of points suffices. -/
def cutSegs : ℕ → List RoiPoint → List (List RoiPoint)
  | 0, pts => [pts]
  | fuel + 1, pts =>
    match splitIndex pts with
    | none => [pts]
    | some m => pts.take (m + 1) :: cutSegs fuel (pts.drop (m + 1))

/-- Modelled from the spec: split one ROI into independent ROIs at
each qualifying minimum, each with recomputed rt_apex/height/area; the
MS2 flag is inherited by each piece. -/
def cutROI (cfg : RefinerConfig) (r : ROI) : List ROI :=
  if cfg.cut_long_traces then
    (cutSegs r.points.length r.points).map fun seg => mkROI seg r.has_ms2
  else [r]

/-- Modelled from the spec: the Trace Refiner — drop malformed ROIs,
discard short MS2-less ROIs, then split multi-apex ROIs when
cut_long_traces is enabled.  No Peak-Quality Scorer is configured, so
quality scores stay null and every surviving ROI is accepted. -/
def refineROIs (cfg : RefinerConfig) (rois : List ROI) : List ROI :=
  (discardShortStage cfg (dropMalformed rois)).flatMap (cutROI cfg)

/-! ## Cross-Sample Aligner -/

/-- Modelled from the spec: Aligner configuration
{align_mz_tolerance, align_rt_tolerance, discard_short_roi}. -/
structure AlignConfig where
  align_mz_tolerance : ℚ
  align_rt_tolerance : ℚ
  discard_short_roi : Bool
deriving DecidableEq, Inhabited

/-- A Sample Feature Set: the refined ROIs of one sample. -/
structure SampleFeatureSet where
  sample_id : ℕ
  rois : List ROI
deriving DecidableEq, Inhabited

/-- One pooled ROI tagged with its sample id. -/
structure PoolEntry where
  sid : ℕ
  roi : ROI
deriving DecidableEq, Inhabited

/-- The m/z of a pooled ROI as used by the aligner. -/
def entryMz (e : PoolEntry) : ℚ := e.roi.mz_center

/-- The retention time of a pooled ROI as used by the aligner (apex rt). -/
def entryRt (e : PoolEntry) : ℚ := e.roi.rt_apex

/-- A cluster member: the absorbed ROI together with the cluster
centroid as it stood at absorption time. -/
structure Member where
  sid : ℕ
  roi : ROI
  at_mz : ℚ
  at_rt : ℚ
deriving DecidableEq, Inhabited

/-- Intensity-weighted (by ROI height) m/z centroid of a cluster. -/
def centroidMz (ms : List Member) : ℚ :=
  let w := qsum (ms.map fun m => m.roi.height)
  if w = 0 then 0 else qsum (ms.map fun m => m.roi.mz_center * m.roi.height) / w

/-- Intensity-weighted (by ROI height) rt centroid of a cluster. -/
def centroidRt (ms : List Member) : ℚ :=
  let w := qsum (ms.map fun m => m.roi.height)
  if w = 0 then 0 else qsum (ms.map fun m => m.roi.rt_apex * m.roi.height) / w

/-- A member recording the centroid values at its absorption. -/
def mkMember (e : PoolEntry) (cmz crt : ℚ) : Member := ⟨e.sid, e.roi, cmz, crt⟩

/-- Whether a pooled ROI may seed a new cluster (with discard_short_roi
enabled, ROIs of length < 5 without MS2 may not anchor a cluster,
though they may still be absorbed as supporting members). -/
def canSeed (cfg : AlignConfig) (e : PoolEntry) : Bool :=
  !cfg.discard_short_roi || decide (5 ≤ e.roi.points.length) || e.roi.has_ms2

/-- Modelled from the spec: the inner absorption scan of one cluster.
Walking the remaining sorted entries: an entry within both tolerances
of the running centroid is absorbed if its sample is not yet present;
if its sample is present, the entry whose m/z is closer to the current
centroid stays and the other is returned to the pool; the centroid is
recomputed after each absorption.  Returns (members, leftover pool). -/
def absorbScan (cfg : AlignConfig) :
    List Member → List PoolEntry → List PoolEntry → List Member × List PoolEntry
  | ms, left, [] => (ms, left.reverse)
  | ms, left, e :: rest =>
    if |entryMz e - centroidMz ms| ≤ cfg.align_mz_tolerance ∧
        |entryRt e - centroidRt ms| ≤ cfg.align_rt_tolerance then
      match ms.find? fun m => m.sid == e.sid with
      | none => absorbScan cfg (ms ++ [mkMember e (centroidMz ms) (centroidRt ms)]) left rest
      | some m =>
        if |entryMz e - centroidMz ms| < |m.roi.mz_center - centroidMz ms| then
          absorbScan cfg ((ms.eraseP fun m2 => m2.sid == e.sid) ++
              [mkMember e (centroidMz ms) (centroidRt ms)])
            (⟨m.sid, m.roi⟩ :: left) rest
        else absorbScan cfg ms (e :: left) rest
    else absorbScan cfg ms (e :: left) rest

/-- Modelled from the spec: the greedy clustering pass over the sorted
pool.  Each eligible head entry seeds a new cluster and absorbs
subsequent entries; entries that may not seed are passed over.
Fuel ≥ pool length suffices. -/
def clustersGo (cfg : AlignConfig) : ℕ → List PoolEntry → List (List Member) → List (List Member)
  | 0, _, acc => acc.reverse
  | _ + 1, [], acc => acc.reverse
  | fuel + 1, e :: rest, acc =>
    if canSeed cfg e then
      clustersGo cfg fuel
        (absorbScan cfg [⟨e.sid, e.roi, entryMz e, entryRt e⟩] [] rest).2
        ((absorbScan cfg [⟨e.sid, e.roi, entryMz e, entryRt e⟩] [] rest).1 :: acc)
    else clustersGo cfg fuel rest acc

/-- All ROIs of all samples, tagged with their sample ids. -/
def pooledEntries (samples : List SampleFeatureSet) : List PoolEntry :=
  samples.flatMap fun s => s.rois.map fun r => ⟨s.sample_id, r⟩

/-- Pool order: ascending m/z. -/
def mzLe (e f : PoolEntry) : Prop := entryMz e ≤ entryMz f

instance : DecidableRel mzLe := fun e f =>
  inferInstanceAs (Decidable (entryMz e ≤ entryMz f))

instance : IsTotal PoolEntry mzLe := ⟨fun e f => le_total (entryMz e) (entryMz f)⟩

instance : IsTrans PoolEntry mzLe := ⟨fun _ _ _ h1 h2 => le_trans h1 h2⟩

/-- The pooled list sorted by m/z (stable). -/
def sortPool (pool : List PoolEntry) : List PoolEntry := List.insertionSort mzLe pool

/-- The clusters produced by the aligner on a list of samples. -/
def alignClusters (cfg : AlignConfig) (samples : List SampleFeatureSet) :
    List (List Member) :=
  clustersGo cfg (sortPool (pooledEntries samples)).length
    (sortPool (pooledEntries samples)) []

/-- A Consensus Feature: representative m/z and rt (the final
intensity-weighted cluster centroid) and the non-absent per-sample
entries. -/
structure ConsensusFeature where
  mz_representative : ℚ
  rt_representative : ℚ
  entries : List (ℕ × ROI)
deriving DecidableEq, Inhabited

/-- The Consensus Feature of a finished cluster. -/
def clusterFeature (ms : List Member) : ConsensusFeature :=
  ⟨centroidMz ms, centroidRt ms, ms.map fun m => (m.sid, m.roi)⟩

/-- Output order of the Feature Table: mz_representative ascending,
ties by rt_representative ascending. -/
def featLE (f g : ConsensusFeature) : Prop :=
  f.mz_representative < g.mz_representative ∨
    (f.mz_representative = g.mz_representative ∧ f.rt_representative ≤ g.rt_representative)

instance : DecidableRel featLE := fun f g =>
  inferInstanceAs (Decidable (f.mz_representative < g.mz_representative ∨
    (f.mz_representative = g.mz_representative ∧
      f.rt_representative ≤ g.rt_representative)))

/-- Modelled from the spec: the Cross-Sample Aligner — pool all ROIs
sorted by m/z, run the greedy clustering pass, and emit the Consensus
Features sorted by (mz_representative, rt_representative). -/
def alignSamples (cfg : AlignConfig) (samples : List SampleFeatureSet) :
    List ConsensusFeature :=
  List.insertionSort featLE ((alignClusters cfg samples).map clusterFeature)

/-! ## Relationship Grapher -/

/-- Modelled from the spec: Grapher configuration {ppr_threshold,
isotope spacing parameters, adduct_mass_table, in-source rt
tolerance}. -/
structure GrapherConfig where
  ppr_threshold : ℚ
  isotope_max_rank : ℕ
  grouping_mz_tolerance : ℚ
  adduct_mass_table : List ℚ
  insource_rt_tolerance : ℚ
deriving DecidableEq, Inhabited

/-- The per-sample intensity pairs over the samples where both
features are present. -/
def sharedPairs (f g : ConsensusFeature) : List (ℚ × ℚ) :=
  f.entries.filterMap fun e => (g.entries.lookup e.1).map fun r => (e.2.height, r.height)

/-- Whether the Pearson correlation of the paired values is at least
`t`, expressed without square roots (valid for positive thresholds):
both variances positive, covariance positive and
cov² ≥ t² · var·var. -/
def corrAtLeast (t : ℚ) (ps : List (ℚ × ℚ)) : Bool :=
  let n : ℚ := ps.length
  let sx := qsum (ps.map Prod.fst)
  let sy := qsum (ps.map Prod.snd)
  let sxy := qsum (ps.map fun p => p.1 * p.2)
  let sxx := qsum (ps.map fun p => p.1 * p.1)
  let syy := qsum (ps.map fun p => p.2 * p.2)
  let cov := n * sxy - sx * sy
  let vx := n * sxx - sx * sx
  let vy := n * syy - sy * sy
  decide (0 < vx) && decide (0 < vy) && decide (0 < cov) &&
    decide (t * t * (vx * vy) ≤ cov * cov)

/-- Modelled from the spec: the correlation guard — with fewer than 3
co-present samples the correlation is undetermined and no edge may be
assigned. -/
def pprEdge (cfg : GrapherConfig) (f g : ConsensusFeature) : Bool :=
  decide (3 ≤ (sharedPairs f g).length) && corrAtLeast cfg.ppr_threshold (sharedPairs f g)

/-- The relation label carried by a graph edge. -/
inductive PeakRelation where
  | isotope (rank : ℕ)
  | adduct
  | insource
deriving DecidableEq

/-- The isotope rank (1..max) matching an m/z difference within the
grouping tolerance, spacing 1.003355 Da per rank. -/
def isotopeRank (cfg : GrapherConfig) (dmz : ℚ) : Option ℕ :=
  ((List.range cfg.isotope_max_rank).map fun k => k + 1).find? fun k =>
    decide (|dmz - 1.003355 * k| ≤ cfg.grouping_mz_tolerance)

/-- Modelled from the spec: the edge label between two features — the
correlation guard must pass, and the m/z difference must match an
isotope spacing, a known adduct mass difference, or an in-source
fragment relation (different mass, same retention time within a tight
tolerance); priority isotope > adduct > in-source fragment. -/
def edgeLabel (cfg : GrapherConfig) (f g : ConsensusFeature) : Option PeakRelation :=
  if pprEdge cfg f g then
    let dmz := |f.mz_representative - g.mz_representative|
    match isotopeRank cfg dmz with
    | some k => some (.isotope k)
    | none =>
      if cfg.adduct_mass_table.any fun d => decide (|dmz - d| ≤ cfg.grouping_mz_tolerance) then
        some .adduct
      else if |f.rt_representative - g.rt_representative| ≤ cfg.insource_rt_tolerance
          ∧ ¬ f.mz_representative = g.mz_representative then
        some .insource
      else none
  else none

/-- The feature at an index of the Feature Table. -/
def featAt (feats : List ConsensusFeature) (i : ℕ) : ConsensusFeature :=
  (feats.get? i).getD default

/-- Symmetric adjacency between two feature indices. -/
def adjacentB (cfg : GrapherConfig) (feats : List ConsensusFeature) (i j : ℕ) : Bool :=
  decide (¬ i = j) &&
    ((edgeLabel cfg (featAt feats i) (featAt feats j)).isSome ||
      (edgeLabel cfg (featAt feats j) (featAt feats i)).isSome)

/-- Find the first group adjacent to `g`, returning it and the other
groups. -/
def pickAdj (adj : ℕ → ℕ → Bool) (g : List ℕ) :
    List (List ℕ) → Option (List ℕ × List (List ℕ))
  | [] => none
  | h :: t =>
    if g.any fun a => h.any fun b => adj a b then some (h, t)
    else (pickAdj adj g t).map fun p => (p.1, h :: p.2)

/-- Modelled from the spec: connected components by repeated merging —
merge the head group with some adjacent group while one exists, else
the head is a finished component.  Fuel ≥ twice the group count
suffices. -/
def mergeLoop (adj : ℕ → ℕ → Bool) : ℕ → List (List ℕ) → List (List ℕ)
  | 0, gs => gs
  | fuel + 1, gs =>
    match gs with
    | [] => []
    | g :: rest =>
      match pickAdj adj g rest with
      | some p => mergeLoop adj fuel ((g ++ p.1) :: p.2)
      | none => g :: mergeLoop adj fuel rest

/-- The connected components of the candidate graph over the feature
indices. -/
def componentsOf (cfg : GrapherConfig) (feats : List ConsensusFeature) : List (List ℕ) :=
  mergeLoop (adjacentB cfg feats) (2 * feats.length)
    ((List.range feats.length).map fun i => [i])

/-- The member of a component with the lowest representative m/z (the
monoisotopic candidate). -/
def baseIndex (feats : List ConsensusFeature) (g : List ℕ) : ℕ :=
  g.foldl
    (fun b i =>
      if (featAt feats i).mz_representative < (featAt feats b).mz_representative then i else b)
    (g.headD 0)

/-- The isotope-rank role of a member relative to the component's
monoisotopic candidate (rank 0 for the base itself). -/
def isoRankOf (cfg : GrapherConfig) (feats : List ConsensusFeature) (g : List ℕ) (i : ℕ) :
    Option ℕ :=
  if i = baseIndex feats g then some 0
  else isotopeRank cfg
    (|(featAt feats i).mz_representative - (featAt feats (baseIndex feats g)).mz_representative|)

/-- Whether a component carries at least one isotope-labelled edge. -/
def hasIsotopeEdge (cfg : GrapherConfig) (feats : List ConsensusFeature) (g : List ℕ) : Bool :=
  g.any fun a => g.any fun b =>
    match edgeLabel cfg (featAt feats a) (featAt feats b) with
    | some (.isotope _) => true
    | _ => false

/-- The overall intensity of a feature (maximal entry height). -/
def featIntensity (f : ConsensusFeature) : ℚ := qmax (f.entries.map fun e => e.2.height)

/-- The member of a component with the highest intensity (first wins
on ties). -/
def maxIntensityIndex (feats : List ConsensusFeature) (g : List ℕ) : ℕ :=
  g.foldl
    (fun b i =>
      if featIntensity (featAt feats b) < featIntensity (featAt feats i) then i else b)
    (g.headD 0)

/-- Modelled from the spec: the elected representative of a component —
the rank-0 (monoisotopic) member when the component has isotope edges,
else the highest-intensity member. -/
def repIndex (cfg : GrapherConfig) (feats : List ConsensusFeature) (g : List ℕ) : ℕ :=
  if hasIsotopeEdge cfg feats g then baseIndex feats g else maxIntensityIndex feats g

/-- A Relationship Group: the member feature indices with their
isotope-rank roles, and the single representative index. -/
structure RelationshipGroup where
  members : List (ℕ × Option ℕ)
  representative : ℕ
deriving DecidableEq, Inhabited

/-- The Relationship Group built from one connected component. -/
def groupOf (cfg : GrapherConfig) (feats : List ConsensusFeature) (g : List ℕ) :
    RelationshipGroup :=
  ⟨g.map fun i => (i, isoRankOf cfg feats g i), repIndex cfg feats g⟩

/-- Modelled from the spec: the Relationship Grapher — partition the
Feature Table into groups along connected components of the candidate
graph and elect each group's representative. -/
def groupFeatures (cfg : GrapherConfig) (feats : List ConsensusFeature) :
    List RelationshipGroup :=
  (componentsOf cfg feats).map (groupOf cfg feats)

/-- Scan indices strictly increase along the points. -/
def ScanIdxSorted (pts : List RoiPoint) : Prop :=
  pts.Pairwise fun a b => a.scan_index < b.scan_index

/-- Retention times weakly increase along the points. -/
def RtSorted (pts : List RoiPoint) : Prop :=
  pts.Pairwise fun a b => a.rt ≤ b.rt

/-- The ROI invariants of the data model: at least one point, strictly
increasing scan indices (and weakly increasing retention times),
rt_start ≤ rt_apex ≤ rt_end, and height equal to the maximal point
intensity. -/
def RoiGood (r : ROI) : Prop :=
  r.points ≠ [] ∧ ScanIdxSorted r.points ∧ RtSorted r.points ∧
    r.rt_start ≤ r.rt_apex ∧ r.rt_apex ≤ r.rt_end ∧
    r.height = maxIntensity r.points ∧ 1 ≤ r.length

instance (pts : List RoiPoint) : Decidable (ScanIdxSorted pts) := by
  unfold ScanIdxSorted; infer_instance

instance (pts : List RoiPoint) : Decidable (RtSorted pts) := by
  unfold RtSorted; infer_instance

instance (r : ROI) : Decidable (RoiGood r) := by
  unfold RoiGood; infer_instance

/-- Structural well-formedness of an open trace. -/
def TraceOK (tr : OpenTrace) : Prop :=
  tr.points ≠ [] ∧ ScanIdxSorted tr.points ∧ RtSorted tr.points

/-- Well-formedness relative to the number of processed scans `n` and
the last processed retention time `b`. -/
def TraceWF (n : ℕ) (b : ℚ) (tr : OpenTrace) : Prop :=
  TraceOK tr ∧ ∀ p ∈ tr.points, p.scan_index < n ∧ p.rt ≤ b

/-- All ROIs of a list satisfy the data model invariants. -/
def AllRoiGood (l : List ROI) : Prop := ∀ r ∈ l, RoiGood r

instance (l : List ROI) : Decidable (AllRoiGood l) := by
  unfold AllRoiGood; infer_instance

/-- Concrete example inputs used by the witnesses. -/
def exBuilderCfg : BuilderConfig := ⟨0.01, 100, 1⟩

def exRefCfg : RefinerConfig := ⟨2, true⟩

def exScans : List Scan :=
  [⟨0.1, [⟨100, 500⟩, ⟨200, 300⟩]⟩, ⟨0.2, [⟨100.004, 800⟩]⟩, ⟨0.3, []⟩, ⟨0.4, []⟩,
    ⟨0.5, [⟨100.002, 400⟩]⟩]

/-- Example ROIs for the refiner witnesses: a short trace without MS2,
a short trace with MS2, and a long trace. -/
def exShortROI : ROI := mkROI [⟨0, 0, 100, 50⟩] false

def exShortMs2ROI : ROI := mkROI [⟨0, 0, 200, 50⟩] true

def exLongROI : ROI :=
  mkROI [⟨0, 0, 300, 50⟩, ⟨1, 1, 300, 80⟩, ⟨2, 2, 300, 60⟩] false

def exRois : List ROI := [exShortROI, exShortMs2ROI, exLongROI]

def exRefNoCut : RefinerConfig := ⟨3, false⟩

/-- The double-apex example trace: two apexes (100 and 90) separated
by a deep valley (12). -/
def exDblPts : List RoiPoint :=
  [⟨0, 0, 100, 10⟩, ⟨1, 1, 100, 100⟩, ⟨2, 2, 100, 12⟩, ⟨3, 3, 100, 90⟩, ⟨4, 4, 100, 8⟩]

def exDblROI : ROI := mkROI exDblPts false

def exCutCfg : RefinerConfig := ⟨3, true⟩

instance : IsTotal ConsensusFeature featLE := by
  constructor
  intro f g
  rcases lt_trichotomy f.mz_representative g.mz_representative with h | h | h
  · exact Or.inl (Or.inl h)
  · rcases le_total f.rt_representative g.rt_representative with h2 | h2
    · exact Or.inl (Or.inr ⟨h, h2⟩)
    · exact Or.inr (Or.inr ⟨h.symm, h2⟩)
  · exact Or.inr (Or.inl h)

instance : IsTrans ConsensusFeature featLE := by
  constructor
  intro f g h hfg hgh
  rcases hfg with h1 | ⟨h1, h1'⟩
  · rcases hgh with h2 | ⟨h2, _⟩
    · exact Or.inl (lt_trans h1 h2)
    · exact Or.inl (h2 ▸ h1)
  · rcases hgh with h2 | ⟨h2, h2'⟩
    · exact Or.inl (h1 ▸ h2)
    · exact Or.inr ⟨h1.trans h2, le_trans h1' h2'⟩

/-- A concrete builder state with two one-point open traces. -/
def exState : BuilderState :=
  ⟨[⟨[⟨0, 0.1, 100, 500⟩], 0⟩, ⟨[⟨0, 0.1, 200, 300⟩], 0⟩], []⟩

def exScan2 : Scan := ⟨0.2, [⟨100.004, 800⟩]⟩

/-- Open traces and scan exhibiting a matching conflict, for the C6
witness: both centroids lie within tolerance of the first trace. -/
def exOpens6 : List OpenTrace :=
  [⟨[⟨0, 0.1, 100, 1000⟩], 0⟩, ⟨[⟨0, 0.1, 100.009, 1000⟩], 0⟩]

def exScan6 : Scan := ⟨0.2, [⟨100.002, 500⟩, ⟨100.003, 600⟩]⟩

/-- A one-point ROI used in aligner and grapher examples. -/
def exROI (mz rt h : ℚ) : ROI :=
  { points := [⟨0, rt, mz, h⟩], mz_center := mz, rt_start := rt, rt_end := rt,
    rt_apex := rt, height := h, area := 0, has_ms2 := false, quality_score := none }

/-- C3's claim as stated: every non-absent entry of every emitted
Consensus Feature lies within alignment tolerance of the
representative values. -/
def AlignTolInvariant (cfg : AlignConfig) (samples : List SampleFeatureSet) : Prop :=
  ∀ f ∈ alignSamples cfg samples, ∀ e ∈ f.entries,
    |e.2.mz_center - f.mz_representative| ≤ cfg.align_mz_tolerance ∧
      |e.2.rt_apex - f.rt_representative| ≤ cfg.align_rt_tolerance

instance (cfg : AlignConfig) (samples : List SampleFeatureSet) :
    Decidable (AlignTolInvariant cfg samples) :=
  inferInstanceAs (Decidable (∀ f ∈ alignSamples cfg samples, ∀ e ∈ f.entries,
    |e.2.mz_center - f.mz_representative| ≤ cfg.align_mz_tolerance ∧
      |e.2.rt_apex - f.rt_representative| ≤ cfg.align_rt_tolerance))

/-- A cluster member lies within tolerance of the cluster centroid as
it stood when the member was absorbed. -/
def MemberTolOK (cfg : AlignConfig) (m : Member) : Prop :=
  |m.roi.mz_center - m.at_mz| ≤ cfg.align_mz_tolerance ∧
    |m.roi.rt_apex - m.at_rt| ≤ cfg.align_rt_tolerance

/-- The amended C3 invariant over the aligner's clusters. -/
def AbsorbTolOK (cfg : AlignConfig) (samples : List SampleFeatureSet) : Prop :=
  ∀ ms ∈ alignClusters cfg samples, ∀ m ∈ ms, MemberTolOK cfg m

/-- The C3 counterexample configuration and samples: the running
centroid drifts towards later heavy members, leaving the light seed
outside tolerance of the final representative. -/
def cfgC3 : AlignConfig := ⟨1, 100, false⟩

def samplesC3 : List SampleFeatureSet :=
  [⟨0, [exROI 0 0 1]⟩, ⟨1, [exROI 1 0 1000]⟩, ⟨2, [exROI 1.9 0 1000]⟩]

/-- Two Feature Tables are equal as sets of representative (mz, rt)
keys — the weakest reading of C1's "identical as a set, ignoring
per-sample-id mapping direction". -/
def SameKeySet (l1 l2 : List ConsensusFeature) : Prop :=
  (∀ f ∈ l1, ∃ g ∈ l2, g.mz_representative = f.mz_representative ∧
    g.rt_representative = f.rt_representative) ∧
  (∀ g ∈ l2, ∃ f ∈ l1, f.mz_representative = g.mz_representative ∧
    f.rt_representative = g.rt_representative)

instance (l1 l2 : List ConsensusFeature) : Decidable (SameKeySet l1 l2) :=
  inferInstanceAs (Decidable (_ ∧ _))

/-- C1 counterexample data: three one-ROI samples whose ROIs share the
same m/z but have chained retention times, so the greedy clustering
depends on the stable-sort tie order and hence on the sample order. -/
def cfgC1 : AlignConfig := ⟨0.01, 0.2, false⟩

def sC1a : SampleFeatureSet := ⟨0, [exROI 0 0 1]⟩

def sC1b : SampleFeatureSet := ⟨1, [exROI 0 0.15 1]⟩

def sC1c : SampleFeatureSet := ⟨2, [exROI 0 0.3 1]⟩

/-- C1 witness data: two samples with distinct ROI m/z values. -/
def sC1d : SampleFeatureSet := ⟨0, [exROI 1 0 1]⟩

def sC1e : SampleFeatureSet := ⟨1, [exROI 2 0 1]⟩

/-- A Consensus Feature for grapher examples: per-sample entries with
the given heights (sample ids 0, 1, ...). -/
def gFeat (mz : ℚ) (hs : List ℚ) : ConsensusFeature :=
  ⟨mz, 0, hs.enum.map fun p => (p.1, exROI mz 0 p.2)⟩

/-- Grapher configuration for the examples: ppr 0.7, isotope ranks up
to 2 with 0.01 tolerance, no adducts. -/
def gcfgC9 : GrapherConfig := ⟨0.7, 2, 0.01, [], 0.1⟩

/-- The C9 isotope triple: mz, mz + 1.003355 and mz + 2·1.003355 with
perfectly correlated intensities over three samples. -/
def featsC9 : List ConsensusFeature :=
  [gFeat 100 [10, 20, 30], gFeat 101.003355 [5, 10, 15],
    gFeat (100 + 2 * 1.003355) [1, 2, 3]]

/-- Two features co-present in only two samples, for the C10 witness. -/
def featC10a : ConsensusFeature := gFeat 100 [10, 20]

def featC10b : ConsensusFeature := gFeat 101.003355 [5, 10]

/-! ## Generic list helpers -/

theorem qmax_mem : ∀ l : List ℚ, l ≠ [] → qmax l ∈ l
  | [x], _ => by simp [qmax]
  | x :: y :: xs, _ => by
    rcases max_choice x (qmax (y :: xs)) with h | h
    · simp [qmax, h]
    · have := qmax_mem (y :: xs) (by simp)
      simp only [qmax, h]
      exact List.mem_cons_of_mem _ this

theorem le_qmax : ∀ l : List ℚ, ∀ a ∈ l, a ≤ qmax l
  | [x], a, ha => by simp_all [qmax]
  | x :: y :: xs, a, ha => by
    rcases List.mem_cons.mp ha with rfl | ha
    · exact le_max_left _ _
    · exact le_trans (le_qmax (y :: xs) a ha) (le_max_right _ _)

theorem length_filter_partition (p : α → Bool) (l : List α) :
    (l.filter p).length + (l.filter fun a => !p a).length = l.length := by
  induction l with
  | nil => rfl
  | cons a t ih =>
    by_cases h : p a = true <;> simp [List.filter_cons, h, ← ih] <;> omega

/-- A fold that keeps either the accumulator or a member of the list. -/
theorem foldl_choice_mem {f : ℕ → ℕ → ℕ} (hf : ∀ b i, f b i = b ∨ f b i = i) :
    ∀ (l : List ℕ) (b : ℕ), l.foldl f b = b ∨ l.foldl f b ∈ l
  | [], _ => Or.inl rfl
  | a :: t, b => by
    rcases foldl_choice_mem hf t (f b a) with h | h
    · rcases hf b a with h2 | h2
      · rw [List.foldl_cons, h, h2]; exact Or.inl rfl
      · rw [List.foldl_cons, h, h2]; exact Or.inr (List.mem_cons_self _ _)
    · exact Or.inr (List.mem_cons_of_mem _ h)

/-! ## ROI well-formedness (claim C2) -/

theorem apexPoint_spec (pts : List RoiPoint) (h : pts ≠ []) :
    apexPoint pts ∈ pts ∧ (apexPoint pts).intensity = maxIntensity pts := by
  have hmem : maxIntensity pts ∈ pts.map RoiPoint.intensity :=
    qmax_mem _ (by simpa using h)
  obtain ⟨p, hp, hpi⟩ := List.mem_map.mp hmem
  have hfind : ∃ a, pts.find? (fun q => decide (q.intensity = maxIntensity pts)) = some a := by
    cases hfe : pts.find? fun q => decide (q.intensity = maxIntensity pts) with
    | none =>
      exact absurd (by simpa using List.find?_eq_none.mp hfe p hp) (by simp [hpi])
    | some a => exact ⟨a, rfl⟩
  obtain ⟨a, ha⟩ := hfind
  have h1 := List.mem_of_find?_eq_some ha
  have h2 := List.find?_some ha
  refine ⟨?_, ?_⟩ <;> simp only [apexPoint, ha, Option.getD_some]
  · exact h1
  · exact of_decide_eq_true h2

theorem head_le_of_rtSorted {pts : List RoiPoint} (hs : RtSorted pts) {a : RoiPoint}
    (ha : a ∈ pts) : ((pts.head?.getD default)).rt ≤ a.rt := by
  cases pts with
  | nil => cases ha
  | cons p t =>
    rcases List.mem_cons.mp ha with rfl | ha
    · simp
    · simpa using (List.rel_of_pairwise_cons hs ha)

theorem le_getLast_of_rtSorted : ∀ {pts : List RoiPoint}, RtSorted pts → ∀ {a : RoiPoint},
    a ∈ pts → a.rt ≤ ((pts.getLast?.getD default)).rt
  | [], _, _, ha => absurd ha (List.not_mem_nil _)
  | [p], _, a, ha => by
    rcases List.mem_singleton.mp ha with rfl; simp
  | p :: q :: t, hs, a, ha => by
    have htail : RtSorted (q :: t) := (List.pairwise_cons.mp hs).2
    have hL : (p :: q :: t).getLast? = (q :: t).getLast? := by
      simp [List.getLast?_cons_cons]
    rcases List.mem_cons.mp ha with rfl | ha
    · have hq : a.rt ≤ q.rt := List.rel_of_pairwise_cons hs (List.mem_cons_self _ _)
      have := le_getLast_of_rtSorted htail (List.mem_cons_self q t)
      rw [hL]
      exact le_trans hq this
    · rw [hL]
      exact le_getLast_of_rtSorted htail ha

/-- Closing a nonempty, sorted trace yields a ROI satisfying the data
model invariants. -/
theorem closeTrace_good {tr : OpenTrace} (hne : tr.points ≠ [])
    (hs : ScanIdxSorted tr.points) (hr : RtSorted tr.points) :
    RoiGood (closeTrace tr) := by
  obtain ⟨hmem, hint⟩ := apexPoint_spec tr.points hne
  refine ⟨hne, hs, hr, ?_, ?_, rfl, ?_⟩
  · exact head_le_of_rtSorted hr hmem
  · exact le_getLast_of_rtSorted hr hmem
  · have : 0 < tr.points.length := List.length_pos.mpr hne
    simpa [ROI.length, closeTrace] using this

/-! ## Builder invariants -/

theorem TraceWF.mono {n n' : ℕ} {b b' : ℚ} {tr : OpenTrace} (hn : n ≤ n') (hb : b ≤ b')
    (h : TraceWF n b tr) : TraceWF n' b' tr :=
  ⟨h.1, fun p hp => ⟨lt_of_lt_of_le (h.2 p hp).1 hn, le_trans (h.2 p hp).2 hb⟩⟩

theorem extendTrace_wf {n : ℕ} {b rt : ℚ} {tr : OpenTrace} (h : TraceWF n b tr)
    (hbr : b ≤ rt) (c : Centroid) : TraceWF (n + 1) rt (extendTrace tr n rt c) := by
  obtain ⟨⟨hne, hsi, hrs⟩, hbnd⟩ := h
  refine ⟨⟨by simp [extendTrace], ?_, ?_⟩, ?_⟩
  · exact List.pairwise_append.mpr ⟨hsi, List.pairwise_singleton _ _,
      fun a ha p hp => by rw [List.mem_singleton.mp hp]; exact (hbnd a ha).1⟩
  · exact List.pairwise_append.mpr ⟨hrs, List.pairwise_singleton _ _,
      fun a ha p hp => by rw [List.mem_singleton.mp hp]; exact le_trans (hbnd a ha).2 hbr⟩
  · intro p hp
    rcases List.mem_append.mp hp with hp | hp
    · exact ⟨Nat.lt_succ_of_lt (hbnd p hp).1, le_trans (hbnd p hp).2 hbr⟩
    · rw [List.mem_singleton.mp hp]; exact ⟨Nat.lt_succ_self _, le_refl _⟩

theorem initTrace_wf (n : ℕ) (rt : ℚ) (c : Centroid) :
    TraceWF (n + 1) rt (initTrace n rt c) := by
  refine ⟨⟨by simp [initTrace], ?_, ?_⟩, ?_⟩
  · exact List.pairwise_singleton _ _
  · exact List.pairwise_singleton _ _
  · intro p hp
    have hp' : p = ⟨n, rt, c.mz, c.intensity⟩ := by simpa [initTrace] using hp
    subst hp'
    exact ⟨Nat.lt_succ_self _, le_refl _⟩

theorem stepTrace_wf {cfg : BuilderConfig} {opens : List OpenTrace} {scan : Scan}
    {n : ℕ} {b : ℚ} {k : ℕ} {tr : OpenTrace} (h : TraceWF n b tr) (hbr : b ≤ scan.rt) :
    TraceWF (n + 1) scan.rt (stepTrace cfg opens scan n k tr) := by
  unfold stepTrace
  cases (scanAssign cfg opens scan).lookup k with
  | some c => exact extendTrace_wf h hbr c
  | none => exact h.mono (Nat.le_succ _) hbr

theorem mem_updatedOpens {cfg : BuilderConfig} {opens : List OpenTrace} {scan : Scan}
    {n : ℕ} {tr' : OpenTrace} (h : tr' ∈ updatedOpens cfg opens scan n) :
    ∃ k tr, tr ∈ opens ∧ tr' = stepTrace cfg opens scan n k tr := by
  obtain ⟨⟨k, tr⟩, hk, rfl⟩ := List.mem_map.mp h
  have : opens.get? k = some tr := by
    simpa using (List.mem_enum_iff_getElem?.mp hk)
  exact ⟨k, tr, List.get?_mem this, rfl⟩

theorem processScan_inv {cfg : BuilderConfig} {st : BuilderState} {n : ℕ} {b : ℚ}
    {scan : Scan} (hop : ∀ tr ∈ st.opens, TraceWF n b tr)
    (hfin : ∀ r ∈ st.finished, RoiGood r) (hb : b ≤ scan.rt) :
    (∀ tr ∈ (processScan cfg st n scan).opens, TraceWF (n + 1) scan.rt tr) ∧
      (∀ r ∈ (processScan cfg st n scan).finished, RoiGood r) := by
  have hupd : ∀ tr' ∈ updatedOpens cfg st.opens scan n, TraceWF (n + 1) scan.rt tr' := by
    intro tr' h
    obtain ⟨k, tr, htr, rfl⟩ := mem_updatedOpens h
    exact stepTrace_wf (hop tr htr) hb
  constructor
  · intro tr h
    rcases List.mem_append.mp h with h | h
    · exact hupd _ (List.mem_of_mem_filter h)
    · obtain ⟨c, _, rfl⟩ := List.mem_map.mp h
      exact initTrace_wf n scan.rt c
  · intro r h
    rcases List.mem_append.mp h with h | h
    · exact hfin r h
    · obtain ⟨tr, htr, rfl⟩ := List.mem_map.mp h
      obtain ⟨⟨hne, hsi, hrs⟩, _⟩ := hupd _ (List.mem_of_mem_filter htr)
      exact closeTrace_good hne hsi hrs

theorem buildLoop_inv (cfg : BuilderConfig) :
    ∀ (scans : List Scan) (st : BuilderState) (n : ℕ) (b : ℚ),
      (∀ tr ∈ st.opens, TraceWF n b tr) → (∀ r ∈ st.finished, RoiGood r) →
      List.Chain (· ≤ ·) b (scans.map Scan.rt) →
      (∀ r ∈ (buildLoop cfg scans st n).finished, RoiGood r) ∧
        (∀ tr ∈ (buildLoop cfg scans st n).opens, TraceOK tr)
  | [], st, n, b, hop, hfin, _ => ⟨hfin, fun tr h => (hop tr h).1⟩
  | scan :: rest, st, n, b, hop, hfin, hchain => by
    rw [List.map_cons, List.chain_cons] at hchain
    have step := @processScan_inv cfg st n b scan hop hfin hchain.1
    exact buildLoop_inv cfg rest _ (n + 1) scan.rt step.1 step.2 hchain.2

theorem buildTraces_good (cfg : BuilderConfig) (scans : List Scan)
    (hrt : (scans.map Scan.rt).Pairwise (· < ·)) :
    AllRoiGood (buildTraces cfg scans) := by
  have hchain : List.Chain (· ≤ ·) ((scans.map Scan.rt).headD 0) (scans.map Scan.rt) := by
    have hrt' := hrt.chain'
    cases h : scans.map Scan.rt with
    | nil => exact List.Chain.nil
    | cons a t =>
      rw [h] at hrt'
      have : List.Chain (· < ·) a t := hrt'
      simp only [List.headD_cons]
      exact List.chain_cons.mpr ⟨le_refl a, this.imp fun _ _ h => le_of_lt h⟩
  have := buildLoop_inv cfg scans ⟨[], []⟩ 0 ((scans.map Scan.rt).headD 0)
    (by intro tr h; cases h) (by intro r h; cases h) hchain
  intro r h
  rcases List.mem_append.mp h with h | h
  · exact this.1 r h
  · obtain ⟨tr, htr, rfl⟩ := List.mem_map.mp h
    obtain ⟨hne, hsi, hrs⟩ := this.2 tr htr
    exact closeTrace_good hne hsi hrs

/-! ## Refiner preserves the invariants -/

theorem mkROI_good {pts : List RoiPoint} {ms2 : Bool} (hne : pts ≠ [])
    (hsi : ScanIdxSorted pts) (hrs : RtSorted pts) : RoiGood (mkROI pts ms2) :=
  @closeTrace_good ⟨pts, 0⟩ hne hsi hrs

theorem splitIndex_bounds {pts : List RoiPoint} {m : ℕ} (h : splitIndex pts = some m) :
    0 < m ∧ m + 1 < pts.length := by
  have := List.find?_some h
  simp only [Bool.and_eq_true, decide_eq_true_eq] at this
  exact ⟨this.1.1, this.1.2⟩

theorem cutSegs_mem : ∀ (fuel : ℕ) (pts : List RoiPoint), ∀ seg ∈ cutSegs fuel pts,
    seg.Sublist pts ∧ (pts ≠ [] → seg ≠ [])
  | 0, pts, seg, hmem => by
    have h' : seg = pts := List.mem_singleton.mp (by simpa [cutSegs] using hmem)
    subst h'
    exact ⟨List.Sublist.refl _, fun h => h⟩
  | fuel + 1, pts, seg, hmem => by
    rw [cutSegs] at hmem
    cases hsp : splitIndex pts with
    | none =>
      rw [hsp] at hmem
      rw [List.mem_singleton.mp hmem]
      exact ⟨List.Sublist.refl _, fun h => h⟩
    | some m =>
      rw [hsp] at hmem
      obtain ⟨hm0, hmlen⟩ := splitIndex_bounds hsp
      rcases List.mem_cons.mp hmem with rfl | hmem
      · refine ⟨List.take_sublist _ _, fun _ => ?_⟩
        have : 0 < (pts.take (m + 1)).length := by
          rw [List.length_take]; omega
        exact List.length_pos.mp this
      · have hdropne : pts.drop (m + 1) ≠ [] := by
          have : 0 < (pts.drop (m + 1)).length := by
            rw [List.length_drop]; omega
          exact List.length_pos.mp this
        obtain ⟨hsub, hne⟩ := cutSegs_mem fuel (pts.drop (m + 1)) seg hmem
        exact ⟨hsub.trans (List.drop_sublist _ _), fun _ => hne hdropne⟩

theorem cutROI_good {cfg : RefinerConfig} {r : ROI} (hr : RoiGood r) :
    ∀ r' ∈ cutROI cfg r, RoiGood r' := by
  intro r' h
  unfold cutROI at h
  by_cases hc : cfg.cut_long_traces
  · rw [if_pos hc] at h
    obtain ⟨seg, hseg, rfl⟩ := List.mem_map.mp h
    obtain ⟨hsub, hne⟩ := cutSegs_mem _ _ seg hseg
    obtain ⟨hrne, hsi, hrs, _⟩ := hr
    exact mkROI_good (hne hrne) (List.Pairwise.sublist hsub hsi)
      (List.Pairwise.sublist hsub hrs)
  · rw [if_neg hc] at h
    rw [List.mem_singleton.mp h]
    exact hr

theorem refineROIs_good (rcfg : RefinerConfig) {rois : List ROI} (h : AllRoiGood rois) :
    AllRoiGood (refineROIs rcfg rois) := by
  intro r' h'
  obtain ⟨r, hr, hr'⟩ := List.mem_flatMap.mp h'
  have hrois : r ∈ rois := List.mem_of_mem_filter (List.mem_of_mem_filter hr)
  exact cutROI_good (h r hrois) r' hr'

/-- C2: every ROI produced by the Trace Builder, and every ROI of the
refined Sample Feature Set, satisfies the data model invariants:
strictly increasing scan indices, rt_start ≤ rt_apex ≤ rt_end, height
equal to the maximal point intensity, and at least one point —
provided the Scan Source delivers strictly increasing retention
times. -/
theorem roi_invariants_C2 (cfg : BuilderConfig) (rcfg : RefinerConfig) (scans : List Scan)
    (hrt : (scans.map Scan.rt).Pairwise (· < ·)) :
    AllRoiGood (buildTraces cfg scans) ∧
      AllRoiGood (refineROIs rcfg (buildTraces cfg scans)) :=
  ⟨buildTraces_good cfg scans hrt,
    refineROIs_good rcfg (buildTraces_good cfg scans hrt)⟩

unseal Rat.add Rat.mul Rat.inv Rat.sub Rat.ofScientific in
/-- Witness for C2 at a concrete scan list. -/
theorem roi_invariants_C2_witness :
    (exScans.map Scan.rt).Pairwise (· < ·) ∧
      AllRoiGood (refineROIs exRefCfg (buildTraces exBuilderCfg exScans)) :=
  ⟨by decide, (roi_invariants_C2 exBuilderCfg exRefCfg exScans (by decide)).2⟩

/-! ## Refiner claims (C7, C8) -/

/-- C7: the Refiner's discard stage keeps a (well-formed, nonempty)
ROI exactly when its length reaches min_points or it carries an MS2
spectrum — i.e. it drops a ROI iff length < min_points and no MS2; and
with splitting disabled the Sample Feature Set is exactly the kept
ROIs. -/
theorem refiner_drop_iff_C7 (cfg : RefinerConfig) (rois : List ROI) :
    (∀ r ∈ rois, r.points ≠ [] →
      (r ∈ discardShortStage cfg (dropMalformed rois) ↔
        cfg.min_points ≤ r.points.length ∨ r.has_ms2 = true)) ∧
    (cfg.cut_long_traces = false →
      refineROIs cfg rois = discardShortStage cfg (dropMalformed rois)) := by
  constructor
  · intro r hr hne
    constructor
    · intro hmem
      have := (List.mem_filter.mp hmem).2
      simpa [keepROI] using this
    · intro hkeep
      refine List.mem_filter.mpr ⟨List.mem_filter.mpr ⟨hr, ?_⟩, ?_⟩
      · simpa [List.isEmpty_iff] using hne
      · simpa [keepROI] using hkeep
  · intro hc
    unfold refineROIs
    have hone : cutROI cfg = fun r => [r] :=
      funext fun r => by simp [cutROI, hc]
    rw [hone]
    exact List.flatMap_singleton' _

unseal Rat.add Rat.mul Rat.inv Rat.sub Rat.ofScientific in
/-- Witness for C7 on concrete ROIs: the short MS2-less ROI is
dropped, the short MS2-carrying ROI is kept, and with splitting
disabled the refiner output is exactly the discard stage. -/
theorem refiner_drop_iff_C7_witness :
    ((exShortROI ∈ discardShortStage exRefNoCut (dropMalformed exRois) ↔
        exRefNoCut.min_points ≤ exShortROI.points.length ∨ exShortROI.has_ms2 = true) ∧
      (exShortMs2ROI ∈ discardShortStage exRefNoCut (dropMalformed exRois) ↔
        exRefNoCut.min_points ≤ exShortMs2ROI.points.length ∨ exShortMs2ROI.has_ms2 = true)) ∧
      refineROIs exRefNoCut exRois = discardShortStage exRefNoCut (dropMalformed exRois) :=
  ⟨⟨(refiner_drop_iff_C7 exRefNoCut exRois).1 exShortROI (by decide) (by decide),
      (refiner_drop_iff_C7 exRefNoCut exRois).1 exShortMs2ROI (by decide) (by decide)⟩,
    (refiner_drop_iff_C7 exRefNoCut exRois).2 rfl⟩

theorem cutSegs_flatten : ∀ (fuel : ℕ) (pts : List RoiPoint), (cutSegs fuel pts).flatten = pts
  | 0, pts => by simp [cutSegs]
  | fuel + 1, pts => by
    rw [cutSegs]
    cases hsp : splitIndex pts with
    | none => simp
    | some m =>
      rw [List.flatten_cons, cutSegs_flatten fuel (pts.drop (m + 1))]
      exact List.take_append_drop _ _

unseal Rat.add Rat.mul Rat.inv Rat.sub Rat.ofScientific in
/-- C8: splitting partitions the points — the pieces' point lists
concatenate back to exactly the original point list (so every original
point is covered exactly once); and the concrete double-apex trace
with one qualifying minimum yields exactly two ROIs, each rebuilt from
its own point range with recomputed rt_apex/height/area. -/
theorem cut_partition_C8 :
    (∀ (cfg : RefinerConfig) (r : ROI), ((cutROI cfg r).map ROI.points).flatten = r.points) ∧
      cutROI exCutCfg exDblROI =
        [mkROI [⟨0, 0, 100, 10⟩, ⟨1, 1, 100, 100⟩, ⟨2, 2, 100, 12⟩] false,
          mkROI [⟨3, 3, 100, 90⟩, ⟨4, 4, 100, 8⟩] false] := by
  constructor
  · intro cfg r
    unfold cutROI
    by_cases hc : cfg.cut_long_traces
    · rw [if_pos hc, List.map_map]
      have : (ROI.points ∘ fun seg => mkROI seg r.has_ms2) = id := by
        funext seg; simp [mkROI, closeTrace]
      rw [this, List.map_id]
      exact cutSegs_flatten _ _
    · rw [if_neg hc]; simp
  · decide

/-! ## Aligner output ordering (C4) -/

/-- C4: the Feature Table emitted by the Cross-Sample Aligner is
sorted by mz_representative ascending, with ties ordered by
rt_representative ascending. -/
theorem align_sorted_C4 (cfg : AlignConfig) (samples : List SampleFeatureSet) :
    List.Sorted featLE (alignSamples cfg samples) :=
  List.sorted_insertionSort featLE _

/-! ## Builder gap policy (C5) -/

theorem updatedOpens_length (cfg : BuilderConfig) (opens : List OpenTrace) (scan : Scan)
    (idx : ℕ) : (updatedOpens cfg opens scan idx).length = opens.length := by
  simp [updatedOpens]

theorem updatedOpens_getD (cfg : BuilderConfig) (opens : List OpenTrace) (scan : Scan)
    (idx k : ℕ) (hk : k < opens.length) :
    (updatedOpens cfg opens scan idx).getD k default =
      stepTrace cfg opens scan idx k (opens.getD k default) := by
  have hk' : k < (updatedOpens cfg opens scan idx).length := by
    rw [updatedOpens_length]; exact hk
  have hke : k < opens.enum.length := by simpa using hk
  rw [List.getD_eq_get _ _ hk', List.getD_eq_get _ _ hk]
  show (opens.enum.map fun p => stepTrace cfg opens scan idx p.1 p.2).get _ = _
  rw [List.get_map]
  congr 1 <;> simp [List.getElem_enum, List.get_eq_getElem]

/-- C5: after each scan, an open trace matched by the assignment is
extended and has gap_counter 0, an unmatched one has its gap_counter
incremented; a trace moves to the finished set exactly when its
gap_counter exceeds max_gap_scans (closing freezing its attributes via
closeTrace); the open/finished trace count grows exactly by the newly
opened traces; and at the end of the Scan Source all remaining open
traces are closed into the output. -/
theorem builder_gap_policy_C5 (cfg : BuilderConfig) (st : BuilderState) (scan : Scan)
    (idx : ℕ) (scans : List Scan) :
    (∀ k, k < st.opens.length →
      (∀ c, (scanAssign cfg st.opens scan).lookup k = some c →
        (updatedOpens cfg st.opens scan idx).getD k default =
          extendTrace (st.opens.getD k default) idx scan.rt c ∧
        ((updatedOpens cfg st.opens scan idx).getD k default).gap_counter = 0) ∧
      ((scanAssign cfg st.opens scan).lookup k = none →
        ((updatedOpens cfg st.opens scan idx).getD k default).gap_counter =
          (st.opens.getD k default).gap_counter + 1)) ∧
    (∀ r : ROI, r ∈ (processScan cfg st idx scan).finished ↔
      r ∈ st.finished ∨ ∃ tr ∈ updatedOpens cfg st.opens scan idx,
        cfg.max_gap_scans < tr.gap_counter ∧ r = closeTrace tr) ∧
    (∀ tr : OpenTrace, tr ∈ (processScan cfg st idx scan).opens ↔
      (tr ∈ updatedOpens cfg st.opens scan idx ∧ tr.gap_counter ≤ cfg.max_gap_scans) ∨
        tr ∈ newOpens cfg st.opens scan idx) ∧
    ((processScan cfg st idx scan).opens.length +
        (processScan cfg st idx scan).finished.length =
      st.opens.length + st.finished.length + (newOpens cfg st.opens scan idx).length) ∧
    (buildTraces cfg scans =
      (buildLoop cfg scans ⟨[], []⟩ 0).finished ++
        (buildLoop cfg scans ⟨[], []⟩ 0).opens.map closeTrace) := by
  refine ⟨?_, ?_, ?_, ?_, rfl⟩
  · intro k hk
    constructor
    · intro c hc
      rw [updatedOpens_getD cfg st.opens scan idx k hk]
      unfold stepTrace
      rw [hc]
      exact ⟨rfl, rfl⟩
    · intro hc
      rw [updatedOpens_getD cfg st.opens scan idx k hk]
      unfold stepTrace
      rw [hc]
  · intro r
    show r ∈ st.finished ++ _ ↔ _
    rw [List.mem_append]
    constructor
    · rintro (h | h)
      · exact Or.inl h
      · obtain ⟨tr, htr, rfl⟩ := List.mem_map.mp h
        obtain ⟨htr', hgap⟩ := List.mem_filter.mp htr
        exact Or.inr ⟨tr, htr', by simpa using hgap, rfl⟩
    · rintro (h | ⟨tr, htr, hgap, rfl⟩)
      · exact Or.inl h
      · exact Or.inr (List.mem_map.mpr ⟨tr,
          List.mem_filter.mpr ⟨htr, by simpa using hgap⟩, rfl⟩)
  · intro tr
    show tr ∈ _ ++ _ ↔ _
    rw [List.mem_append]
    constructor
    · rintro (h | h)
      · obtain ⟨htr, hgap⟩ := List.mem_filter.mp h
        exact Or.inl ⟨htr, by simpa using hgap⟩
      · exact Or.inr h
    · rintro (⟨htr, hgap⟩ | h)
      · exact Or.inl (List.mem_filter.mpr ⟨htr, by simpa using hgap⟩)
      · exact Or.inr h
  · have hopens : (processScan cfg st idx scan).opens =
        (updatedOpens cfg st.opens scan idx).filter
          (fun tr => tr.gap_counter ≤ cfg.max_gap_scans) ++
          newOpens cfg st.opens scan idx := rfl
    have hfin : (processScan cfg st idx scan).finished =
        st.finished ++ ((updatedOpens cfg st.opens scan idx).filter fun tr =>
          cfg.max_gap_scans < tr.gap_counter).map closeTrace := rfl
    rw [hopens, hfin, List.length_append, List.length_append, List.length_map]
    have hflip : ((updatedOpens cfg st.opens scan idx).filter fun tr =>
        cfg.max_gap_scans < tr.gap_counter) =
        (updatedOpens cfg st.opens scan idx).filter fun tr =>
          !decide (tr.gap_counter ≤ cfg.max_gap_scans) := by
      apply List.filter_congr
      intro tr _
      by_cases h : tr.gap_counter ≤ cfg.max_gap_scans <;> simp [h, Nat.not_le, Nat.not_lt] <;>
        omega
    rw [hflip]
    have := length_filter_partition
      (fun tr : OpenTrace => decide (tr.gap_counter ≤ cfg.max_gap_scans))
      (updatedOpens cfg st.opens scan idx)
    rw [updatedOpens_length] at this
    omega

unseal Rat.add Rat.mul Rat.inv Rat.sub Rat.ofScientific in
/-- Witness for C5: in a concrete scan step the matched trace's gap
counter resets to 0 and the unmatched trace's is incremented. -/
theorem builder_gap_policy_C5_witness :
    ((updatedOpens exBuilderCfg exState.opens exScan2 1).getD 0 default).gap_counter = 0 ∧
      ((updatedOpens exBuilderCfg exState.opens exScan2 1).getD 1 default).gap_counter =
        (exState.opens.getD 1 default).gap_counter + 1 :=
  ⟨(((builder_gap_policy_C5 exBuilderCfg exState exScan2 1 []).1 0 (by decide)).1
      ⟨100.004, 800⟩ (by decide)).2,
    ((builder_gap_policy_C5 exBuilderCfg exState exScan2 1 []).1 1 (by decide)).2 (by decide)⟩

/-! ## Greedy matching (C6) -/

theorem pickClosest_spec (f : α → ℚ) :
    ∀ (l : List α) (acc : Option α) (a : α), pickClosest f l acc = some a →
      (acc = some a ∨ a ∈ l) ∧ (∀ q, acc = some q → f a ≤ f q) ∧ ∀ b ∈ l, f a ≤ f b
  | [], acc, a, h => by
    have ha : acc = some a := h
    exact ⟨Or.inl ha, fun q hq => by rw [ha] at hq; cases hq; exact le_refl _,
      fun b hb => absurd hb (List.not_mem_nil b)⟩
  | p :: t, acc, a, h => by
    cases acc with
    | none =>
      have hstep : pickClosest f (p :: t) none = pickClosest f t (some p) := rfl
      rw [hstep] at h
      obtain ⟨h1, h2, h3⟩ := pickClosest_spec f t (some p) a h
      refine ⟨?_, fun q hq => absurd hq (by simp), ?_⟩
      · rcases h1 with h1 | h1
        · exact Or.inr (List.mem_cons.mpr (Or.inl (Option.some.inj h1).symm))
        · exact Or.inr (List.mem_cons_of_mem _ h1)
      · intro b hb
        rcases List.mem_cons.mp hb with rfl | hb
        · exact h2 b rfl
        · exact h3 b hb
    | some q0 =>
      have hstep : pickClosest f (p :: t) (some q0) =
          pickClosest f t (if f p < f q0 then some p else some q0) := rfl
      rw [hstep] at h
      by_cases hpq : f p < f q0
      · rw [if_pos hpq] at h
        obtain ⟨h1, h2, h3⟩ := pickClosest_spec f t (some p) a h
        refine ⟨?_, ?_, ?_⟩
        · rcases h1 with h1 | h1
          · exact Or.inr (List.mem_cons.mpr (Or.inl (Option.some.inj h1).symm))
          · exact Or.inr (List.mem_cons_of_mem _ h1)
        · intro q hq
          obtain rfl : q0 = q := Option.some.inj hq
          exact le_of_lt (lt_of_le_of_lt (h2 p rfl) hpq)
        · intro b hb
          rcases List.mem_cons.mp hb with rfl | hb
          · exact h2 b rfl
          · exact h3 b hb
      · rw [if_neg hpq] at h
        obtain ⟨h1, h2, h3⟩ := pickClosest_spec f t (some q0) a h
        refine ⟨?_, ?_, ?_⟩
        · rcases h1 with h1 | h1
          · exact Or.inl h1
          · exact Or.inr (List.mem_cons_of_mem _ h1)
        · intro q hq
          obtain rfl : q0 = q := Option.some.inj hq
          exact h2 q0 rfl
        · intro b hb
          rcases List.mem_cons.mp hb with rfl | hb
          · exact le_trans (h2 q0 rfl) (not_lt.mp hpq)
          · exact h3 b hb

theorem pickClosest_some (f : α → ℚ) :
    ∀ (l : List α) (q : α), ∃ a, pickClosest f l (some q) = some a
  | [], q => ⟨q, rfl⟩
  | p :: t, q => by
    have hstep : pickClosest f (p :: t) (some q) =
        pickClosest f t (if f p < f q then some p else some q) := rfl
    rw [hstep]
    by_cases hpq : f p < f q
    · rw [if_pos hpq]; exact pickClosest_some f t p
    · rw [if_neg hpq]; exact pickClosest_some f t q

theorem mem_bestPairCands {tol : ℚ} {cs : List Centroid} {ts : List (ℕ × OpenTrace)}
    {c : Centroid} {i : ℕ} {t : OpenTrace} :
    (c, i, t) ∈ bestPairCands tol cs ts ↔ c ∈ cs ∧ (i, t) ∈ ts ∧ cDist c t ≤ tol := by
  constructor
  · intro h
    obtain ⟨c2, hc2, h⟩ := List.mem_flatMap.mp h
    obtain ⟨it, hit, hif⟩ := List.mem_filterMap.mp h
    by_cases hd : cDist c2 it.2 ≤ tol
    · rw [if_pos hd] at hif
      have h1 := Option.some.inj hif
      have hc2e : c2 = c := congrArg Prod.fst h1
      have hie : it.1 = i := congrArg (fun p => p.2.1) h1
      have hte : it.2 = t := congrArg (fun p => p.2.2) h1
      subst hc2e; subst hie; subst hte
      exact ⟨hc2, hit, hd⟩
    · rw [if_neg hd] at hif
      exact absurd hif (by simp)
  · rintro ⟨hc, hit, hd⟩
    exact List.mem_flatMap.mpr ⟨c, hc,
      List.mem_filterMap.mpr ⟨(i, t), hit, by rw [if_pos hd]⟩⟩

theorem bestPair_spec {tol : ℚ} {cs : List Centroid} {ts : List (ℕ × OpenTrace)}
    {c : Centroid} {i : ℕ} {t : OpenTrace} (h : bestPair tol cs ts = some (c, i, t)) :
    c ∈ cs ∧ (i, t) ∈ ts ∧ cDist c t ≤ tol ∧
      ∀ c' i' t', c' ∈ cs → (i', t') ∈ ts → cDist c' t' ≤ tol →
        cDist c t ≤ cDist c' t' := by
  rw [bestPair] at h
  obtain ⟨h1, _, h3⟩ := pickClosest_spec _ _ _ _ h
  have hmem : (c, i, t) ∈ bestPairCands tol cs ts := by
    rcases h1 with h1 | h1
    · exact absurd h1 (by simp)
    · exact h1
  obtain ⟨hc, hit, hd⟩ := mem_bestPairCands.mp hmem
  refine ⟨hc, hit, hd, ?_⟩
  intro c' i' t' hc' hit' hd'
  exact h3 (c', i', t') (mem_bestPairCands.mpr ⟨hc', hit', hd'⟩)

theorem nodup_fst_unique {ts : List (ℕ × OpenTrace)} (h : (ts.map Prod.fst).Nodup) :
    ∀ {i : ℕ} {a b : OpenTrace}, (i, a) ∈ ts → (i, b) ∈ ts → a = b := by
  induction ts with
  | nil => intro i a b ha _; cases ha
  | cons x t ih =>
    rw [List.map_cons, List.nodup_cons] at h
    intro i a b ha hb
    rcases List.mem_cons.mp ha with ha | ha
    · rcases List.mem_cons.mp hb with hb | hb
      · exact congrArg Prod.snd (ha.trans hb.symm)
      · have hmem : i ∈ t.map Prod.fst := List.mem_map.mpr ⟨(i, b), hb, rfl⟩
        rw [← ha] at h
        exact absurd hmem h.1
    · rcases List.mem_cons.mp hb with hb | hb
      · have hmem : i ∈ t.map Prod.fst := List.mem_map.mpr ⟨(i, a), ha, rfl⟩
        rw [← hb] at h
        exact absurd hmem h.1
      · exact ih h.2 ha hb

theorem greedyMatch_mem (tol : ℚ) :
    ∀ (fuel : ℕ) (cs : List Centroid) (ts : List (ℕ × OpenTrace)),
      ∀ p ∈ greedyMatch tol fuel cs ts,
        p.2 ∈ cs ∧ ∃ t, (p.1, t) ∈ ts ∧ cDist p.2 t ≤ tol
  | 0, _, _, p, hp => absurd hp (List.not_mem_nil p)
  | fuel + 1, cs, ts, p, hp => by
    rw [greedyMatch] at hp
    cases hbp : bestPair tol cs ts with
    | none => rw [hbp] at hp; exact absurd hp (List.not_mem_nil p)
    | some trip =>
      obtain ⟨c0, i0, t0⟩ := trip
      rw [hbp] at hp
      obtain ⟨hc0, hit0, hd0, _⟩ := bestPair_spec hbp
      rcases List.mem_cons.mp hp with rfl | hp
      · exact ⟨hc0, t0, hit0, hd0⟩
      · obtain ⟨hcs, t', hts, hd⟩ := greedyMatch_mem tol fuel _ _ p hp
        exact ⟨List.mem_of_mem_erase hcs, t', List.mem_of_mem_filter hts, hd⟩

theorem greedyMatch_nodup (tol : ℚ) :
    ∀ (fuel : ℕ) (cs : List Centroid) (ts : List (ℕ × OpenTrace)),
      ((greedyMatch tol fuel cs ts).map Prod.fst).Nodup
  | 0, _, _ => List.nodup_nil
  | fuel + 1, cs, ts => by
    rw [greedyMatch]
    cases hbp : bestPair tol cs ts with
    | none => exact List.nodup_nil
    | some trip =>
      obtain ⟨c0, i0, t0⟩ := trip
      rw [List.map_cons, List.nodup_cons]
      refine ⟨?_, greedyMatch_nodup tol fuel _ _⟩
      intro hmem
      obtain ⟨⟨j, c⟩, hjc, hj⟩ := List.mem_map.mp hmem
      obtain ⟨_, t', hts, _⟩ := greedyMatch_mem tol fuel _ _ _ hjc
      have hne := (List.mem_filter.mp hts).2
      simp only [decide_eq_true_eq] at hne
      exact hne hj

theorem greedyMatch_closer (tol : ℚ) :
    ∀ (fuel : ℕ) (cs : List Centroid) (ts : List (ℕ × OpenTrace)),
      (ts.map Prod.fst).Nodup →
      ∀ i c t j t', (i, c) ∈ greedyMatch tol fuel cs ts → (i, t) ∈ ts → (j, t') ∈ ts →
        cDist c t' ≤ tol → cDist c t' < cDist c t →
        ∃ c', (j, c') ∈ greedyMatch tol fuel cs ts ∧ cDist c' t' ≤ cDist c t'
  | 0, _, _, _, _, _, _, _, _, hmem, _, _, _, _ => absurd hmem (List.not_mem_nil _)
  | fuel + 1, cs, ts, hnd, i, c, t, j, t', hmem, hit, hjt, htol, hlt => by
    rw [greedyMatch] at hmem ⊢
    cases hbp : bestPair tol cs ts with
    | none => rw [hbp] at hmem; exact absurd hmem (List.not_mem_nil _)
    | some trip =>
      obtain ⟨c0, i0, t0⟩ := trip
      rw [hbp] at hmem
      obtain ⟨hc0, hit0, hd0, hmin⟩ := bestPair_spec hbp
      rcases List.mem_cons.mp hmem with heq | hmem
      · obtain rfl : i = i0 := congrArg Prod.fst heq
        obtain rfl : c = c0 := congrArg Prod.snd heq
        obtain rfl : t = t0 := nodup_fst_unique hnd hit hit0
        exact absurd hlt (not_lt.mpr (hmin c j t' hc0 hjt htol))
      · have hmem2 : (i, c) ∈ greedyMatch tol fuel (cs.erase c0)
            (ts.filter fun it => ¬ it.1 = i0) := hmem
        by_cases hj : j = i0
        · subst hj
          obtain rfl : t' = t0 := nodup_fst_unique hnd hjt hit0
          refine ⟨c0, List.mem_cons_self _ _, ?_⟩
          have hcc : c ∈ cs :=
            List.mem_of_mem_erase
              (greedyMatch_mem tol fuel _ _ (i, c) hmem2).1
          exact hmin c j _ hcc hjt htol
        · have hndf : (((ts.filter fun it => ¬ it.1 = i0).map Prod.fst)).Nodup :=
            List.Nodup.sublist (List.Sublist.map _ (List.filter_sublist _)) hnd
          have hi_ne : ¬ i = i0 := by
            obtain ⟨_, t2, hts2, _⟩ := greedyMatch_mem tol fuel _ _ _ hmem2
            have := (List.mem_filter.mp hts2).2
            simpa using this
          have hitf : (i, t) ∈ ts.filter fun it => ¬ it.1 = i0 :=
            List.mem_filter.mpr ⟨hit, by simpa using hi_ne⟩
          have hjtf : (j, t') ∈ ts.filter fun it => ¬ it.1 = i0 :=
            List.mem_filter.mpr ⟨hjt, by simpa using hj⟩
          obtain ⟨c', hc', hle⟩ :=
            greedyMatch_closer tol fuel _ _ hndf i c t j t' hmem2 hitf hjtf htol hlt
          exact ⟨c', List.mem_cons_of_mem _ hc', hle⟩

/-- C6: properties of one scan's centroid-to-trace assignment — every
assigned centroid passed the intensity threshold and lies within
mz_tolerance_ms1 of its trace; no two centroids of the scan extend the
same trace; and closer-wins: a centroid is only assigned a farther
trace when every strictly closer within-tolerance trace went to a
centroid at least as close to it. -/
theorem builder_matching_C6 (cfg : BuilderConfig) (opens : List OpenTrace) (scan : Scan) :
    (∀ p ∈ scanAssign cfg opens scan,
      p.2 ∈ scanEligible cfg scan ∧ cfg.intensity_threshold ≤ p.2.intensity ∧
        ∃ t, (p.1, t) ∈ opens.enum ∧ cDist p.2 t ≤ cfg.mz_tolerance_ms1) ∧
    ((scanAssign cfg opens scan).map Prod.fst).Nodup ∧
    (∀ i c t j t', (i, c) ∈ scanAssign cfg opens scan → (i, t) ∈ opens.enum →
      (j, t') ∈ opens.enum → cDist c t' ≤ cfg.mz_tolerance_ms1 →
      cDist c t' < cDist c t →
      ∃ c', (j, c') ∈ scanAssign cfg opens scan ∧ cDist c' t' ≤ cDist c t') := by
  have hnd : (opens.enum.map Prod.fst).Nodup := by
    rw [List.enum_map_fst]; exact List.nodup_range _
  refine ⟨?_, greedyMatch_nodup _ _ _ _, ?_⟩
  · intro p hp
    obtain ⟨hcs, t, hts, hd⟩ := greedyMatch_mem _ _ _ _ p hp
    have hint := (List.mem_filter.mp hcs).2
    exact ⟨hcs, by simpa using hint, t, hts, hd⟩
  · intro i c t j t' h1 h2 h3 h4 h5
    exact greedyMatch_closer _ _ _ _ hnd i c t j t' h1 h2 h3 h4 h5

unseal Rat.add Rat.mul Rat.inv Rat.sub Rat.ofScientific in
/-- Witness for C6: in the concrete conflict, the second centroid
loses the first (closer) trace to the first centroid and the trace
was indeed assigned a centroid at least as close. -/
theorem builder_matching_C6_witness :
    ∃ c', (0, c') ∈ scanAssign exBuilderCfg exOpens6 exScan6 ∧
      cDist c' ⟨[⟨0, 0.1, 100, 1000⟩], 0⟩ ≤
        cDist ⟨100.003, 600⟩ ⟨[⟨0, 0.1, 100, 1000⟩], 0⟩ :=
  (builder_matching_C6 exBuilderCfg exOpens6 exScan6).2.2 1 ⟨100.003, 600⟩
    ⟨[⟨0, 0.1, 100.009, 1000⟩], 0⟩ 0 ⟨[⟨0, 0.1, 100, 1000⟩], 0⟩
    (by decide) (by decide) (by decide) (by decide) (by decide)

/-! ## Aligner tolerance (C3) -/

theorem absorbScan_members_tol (cfg : AlignConfig) :
    ∀ (l : List PoolEntry) (ms : List Member) (left : List PoolEntry),
      (∀ m ∈ ms, MemberTolOK cfg m) →
      ∀ m ∈ (absorbScan cfg ms left l).1, MemberTolOK cfg m
  | [], ms, left, hms, m, hm => hms m (by simpa [absorbScan] using hm)
  | e :: rest, ms, left, hms, m, hm => by
    rw [absorbScan] at hm
    by_cases hin : |entryMz e - centroidMz ms| ≤ cfg.align_mz_tolerance ∧
        |entryRt e - centroidRt ms| ≤ cfg.align_rt_tolerance
    · rw [if_pos hin] at hm
      cases hfind : ms.find? fun m2 => m2.sid == e.sid with
      | none =>
        rw [hfind] at hm
        refine absorbScan_members_tol cfg rest _ _ ?_ m hm
        intro m2 hm2
        rcases List.mem_append.mp hm2 with h | h
        · exact hms m2 h
        · rw [List.mem_singleton.mp h]
          exact ⟨hin.1, hin.2⟩
      | some m0 =>
        rw [hfind] at hm
        have hm' : m ∈ (if |entryMz e - centroidMz ms| <
              |m0.roi.mz_center - centroidMz ms| then
            absorbScan cfg ((ms.eraseP fun m2 => m2.sid == e.sid) ++
                [mkMember e (centroidMz ms) (centroidRt ms)])
              (⟨m0.sid, m0.roi⟩ :: left) rest
          else absorbScan cfg ms (e :: left) rest).1 := hm
        by_cases hcl : |entryMz e - centroidMz ms| < |m0.roi.mz_center - centroidMz ms|
        · rw [if_pos hcl] at hm'
          refine absorbScan_members_tol cfg rest _ _ ?_ m hm'
          intro m2 hm2
          rcases List.mem_append.mp hm2 with h | h
          · exact hms m2 (List.mem_of_mem_eraseP h)
          · rw [List.mem_singleton.mp h]
            exact ⟨hin.1, hin.2⟩
        · rw [if_neg hcl] at hm'
          exact absorbScan_members_tol cfg rest _ _ hms m hm'
    · rw [if_neg hin] at hm
      exact absorbScan_members_tol cfg rest _ _ hms m hm

theorem clustersGo_members_tol (cfg : AlignConfig) (h1 : 0 ≤ cfg.align_mz_tolerance)
    (h2 : 0 ≤ cfg.align_rt_tolerance) :
    ∀ (fuel : ℕ) (pool : List PoolEntry) (acc : List (List Member)),
      (∀ ms ∈ acc, ∀ m ∈ ms, MemberTolOK cfg m) →
      ∀ ms ∈ clustersGo cfg fuel pool acc, ∀ m ∈ ms, MemberTolOK cfg m
  | 0, pool, acc, hacc => by
    rw [clustersGo]
    intro ms hms
    exact hacc ms (List.mem_reverse.mp hms)
  | fuel + 1, [], acc, hacc => by
    rw [clustersGo]
    intro ms hms
    exact hacc ms (List.mem_reverse.mp hms)
  | fuel + 1, e :: rest, acc, hacc => by
    rw [clustersGo]
    by_cases hs : canSeed cfg e = true
    · rw [if_pos hs]
      refine clustersGo_members_tol cfg h1 h2 fuel _ _ ?_
      intro ms hms
      rcases List.mem_cons.mp hms with rfl | hms
      · refine absorbScan_members_tol cfg rest _ _ ?_
        intro m hm
        rw [List.mem_singleton.mp hm]
        exact ⟨by simpa [entryMz] using h1, by simpa [entryRt] using h2⟩
      · exact hacc ms hms
    · rw [if_neg hs]
      exact clustersGo_members_tol cfg h1 h2 fuel _ _ hacc

/-- C3 (amended): with positive tolerances, every member of every
aligner cluster lies within alignment tolerance of the cluster
centroid as it stood when the member was absorbed. -/
theorem align_absorb_tol_C3 (cfg : AlignConfig) (samples : List SampleFeatureSet)
    (h1 : 0 ≤ cfg.align_mz_tolerance) (h2 : 0 ≤ cfg.align_rt_tolerance) :
    AbsorbTolOK cfg samples := by
  intro ms hms m hm
  exact clustersGo_members_tol cfg h1 h2 _ _ []
    (fun ms2 h => absurd h (List.not_mem_nil ms2)) ms hms m hm

unseal Rat.add Rat.mul Rat.inv Rat.sub Rat.ofScientific in
/-- Counterexample to C3 as stated: the running centroid drifts while
absorbing, so a concrete cluster's first entry ends up farther than
align_mz_tolerance from the final mz_representative. -/
theorem align_tol_C3_counterexample : ¬ AlignTolInvariant cfgC3 samplesC3 := by decide

unseal Rat.add Rat.mul Rat.inv Rat.sub Rat.ofScientific in
/-- Witness for the amended C3 at the concrete configuration. -/
theorem align_absorb_tol_C3_witness :
    ((0 : ℚ) ≤ cfgC3.align_mz_tolerance ∧ (0 : ℚ) ≤ cfgC3.align_rt_tolerance) ∧
      AbsorbTolOK cfgC3 samplesC3 :=
  ⟨⟨by decide, by decide⟩, align_absorb_tol_C3 cfgC3 samplesC3 (by decide) (by decide)⟩

/-! ## Aligner permutation invariance (C1) -/

theorem perm_rev3 {α : Type} (a b c : α) : ([c, b, a] : List α).Perm [a, b, c] :=
  ((List.Perm.swap b c [a]).trans
    ((List.Perm.swap a c []).cons b)).trans (List.Perm.swap a b [c])

unseal Rat.add Rat.mul Rat.inv Rat.sub Rat.ofScientific in
/-- Counterexample to C1 as stated: reordering the three samples
changes the emitted Feature Table even as a set of representative
(mz, rt) keys, because equal-m/z ROIs are visited in a different
stable-sort order and the greedy clusters differ. -/
theorem align_perm_C1_counterexample :
    ([sC1c, sC1b, sC1a] : List SampleFeatureSet).Perm [sC1a, sC1b, sC1c] ∧
      ¬ SameKeySet (alignSamples cfgC1 [sC1a, sC1b, sC1c])
        (alignSamples cfgC1 [sC1c, sC1b, sC1a]) :=
  ⟨perm_rev3 _ _ _, by decide⟩

/-- C1 (amended): whenever the pooled ROI m/z values are pairwise
distinct (the m/z sort admits no ties), the aligner output is
literally identical under any permutation of the input samples. -/
theorem align_perm_invariant_C1 (cfg : AlignConfig) (s1 s2 : List SampleFeatureSet)
    (hperm : s1.Perm s2) (hnodup : ((pooledEntries s1).map entryMz).Nodup) :
    alignSamples cfg s1 = alignSamples cfg s2 := by
  have hpool : (pooledEntries s1).Perm (pooledEntries s2) :=
    hperm.flatMap_right _
  suffices h : sortPool (pooledEntries s1) = sortPool (pooledEntries s2) by
    unfold alignSamples alignClusters
    rw [h]
  have hs12 : (sortPool (pooledEntries s1)).Perm (sortPool (pooledEntries s2)) :=
    ((List.perm_insertionSort mzLe _).trans hpool).trans
      (List.perm_insertionSort mzLe _).symm
  have hnd1 : ((sortPool (pooledEntries s1)).map entryMz).Nodup :=
    (((List.perm_insertionSort mzLe _).map entryMz).nodup_iff).mpr hnodup
  have hnodup2 : ((pooledEntries s2).map entryMz).Nodup :=
    ((hpool.map entryMz).nodup_iff).mp hnodup
  have hnd2 : ((sortPool (pooledEntries s2)).map entryMz).Nodup :=
    (((List.perm_insertionSort mzLe _).map entryMz).nodup_iff).mpr hnodup2
  have hstrict : ∀ pool : List PoolEntry, List.Sorted mzLe pool →
      (pool.map entryMz).Nodup →
      List.Pairwise (fun a b : PoolEntry => entryMz a < entryMz b) pool := by
    intro pool hsort hnd
    have hne : List.Pairwise (fun a b : PoolEntry => entryMz a ≠ entryMz b) pool :=
      List.pairwise_map.mp hnd
    exact (hsort.and hne).imp fun h => lt_of_le_of_ne h.1 h.2
  have hst1 := hstrict _ (List.sorted_insertionSort mzLe _) hnd1
  have hst2 := hstrict _ (List.sorted_insertionSort mzLe _) hnd2
  haveI : IsAntisymm PoolEntry (fun a b : PoolEntry => entryMz a < entryMz b) :=
    ⟨fun a b h1 h2 => absurd (lt_trans h1 h2) (lt_irrefl _)⟩
  exact List.eq_of_perm_of_sorted hs12 hst1 hst2

unseal Rat.add Rat.mul Rat.inv Rat.sub Rat.ofScientific in
/-- Witness for the amended C1: two distinct-m/z samples in either
order give the same Feature Table. -/
theorem align_perm_invariant_C1_witness :
    ((pooledEntries [sC1d, sC1e]).map entryMz).Nodup ∧
      alignSamples cfgC1 [sC1d, sC1e] = alignSamples cfgC1 [sC1e, sC1d] :=
  ⟨by decide, align_perm_invariant_C1 cfgC1 [sC1d, sC1e] [sC1e, sC1d]
    (List.Perm.swap sC1e sC1d []) (by decide)⟩

/-! ## Relationship Grapher claims (C9, C10) -/

theorem pickAdj_spec (adj : ℕ → ℕ → Bool) (g : List ℕ) :
    ∀ (gs : List (List ℕ)) (h : List ℕ) (rest : List (List ℕ)),
      pickAdj adj g gs = some (h, rest) →
      h ∈ gs ∧ (∀ x ∈ rest, x ∈ gs) ∧ gs.flatten.Perm (h ++ rest.flatten)
  | [], h, rest, hp => absurd hp (by simp [pickAdj])
  | g2 :: t, h, rest, hp => by
    rw [pickAdj] at hp
    by_cases hadj : (g.any fun a => g2.any fun b => adj a b) = true
    · rw [if_pos hadj] at hp
      have heq := Option.some.inj hp
      have h1 : g2 = h := congrArg Prod.fst heq
      have h2 : t = rest := congrArg Prod.snd heq
      subst h1; subst h2
      exact ⟨List.mem_cons_self _ _, fun x hx => List.mem_cons_of_mem _ hx, List.Perm.refl _⟩
    · rw [if_neg hadj] at hp
      cases hrec : pickAdj adj g t with
      | none => rw [hrec] at hp; exact absurd hp (by simp)
      | some p =>
        obtain ⟨h0, t0⟩ := p
        rw [hrec] at hp
        have heq := Option.some.inj hp
        have h1 : h0 = h := congrArg Prod.fst heq
        have h2 : g2 :: t0 = rest := congrArg Prod.snd heq
        subst h1; subst h2
        obtain ⟨hh, hsub, hperm⟩ := pickAdj_spec adj g t h0 t0 hrec
        refine ⟨List.mem_cons_of_mem _ hh, ?_, ?_⟩
        · intro x hx
          rcases List.mem_cons.mp hx with rfl | hx
          · exact List.mem_cons_self _ _
          · exact List.mem_cons_of_mem _ (hsub x hx)
        · show (g2 ++ t.flatten).Perm (h0 ++ (g2 :: t0).flatten)
          refine (hperm.append_left g2).trans ?_
          rw [List.flatten_cons, ← List.append_assoc, ← List.append_assoc]
          exact (List.perm_append_comm).append_right _

theorem mergeLoop_flatten (adj : ℕ → ℕ → Bool) :
    ∀ (fuel : ℕ) (gs : List (List ℕ)), (mergeLoop adj fuel gs).flatten.Perm gs.flatten
  | 0, gs => List.Perm.refl _
  | fuel + 1, [] => by rw [mergeLoop]
  | fuel + 1, g :: rest => by
    rw [mergeLoop]
    cases hp : pickAdj adj g rest with
    | none =>
      exact List.Perm.append_left g (mergeLoop_flatten adj fuel rest)
    | some p =>
      obtain ⟨h0, rest2⟩ := p
      obtain ⟨_, _, hperm⟩ := pickAdj_spec adj g rest h0 rest2 hp
      refine (mergeLoop_flatten adj fuel ((g ++ h0) :: rest2)).trans ?_
      show ((g ++ h0) ++ rest2.flatten).Perm ((g :: rest).flatten)
      rw [List.append_assoc]
      exact (hperm.symm).append_left g

theorem mergeLoop_nonempty (adj : ℕ → ℕ → Bool) :
    ∀ (fuel : ℕ) (gs : List (List ℕ)), (∀ g ∈ gs, g ≠ []) →
      ∀ g ∈ mergeLoop adj fuel gs, g ≠ []
  | 0, gs, hne => hne
  | fuel + 1, [], _ => by rw [mergeLoop]; intro g hg; cases hg
  | fuel + 1, g0 :: rest, hne => by
    rw [mergeLoop]
    cases hp : pickAdj adj g0 rest with
    | none =>
      intro g hg
      rcases List.mem_cons.mp hg with rfl | hg
      · exact hne g (List.mem_cons_self _ _)
      · exact mergeLoop_nonempty adj fuel rest
          (fun x hx => hne x (List.mem_cons_of_mem _ hx)) g hg
    | some p =>
      obtain ⟨h0, rest2⟩ := p
      obtain ⟨hh, hsub, _⟩ := pickAdj_spec adj g0 rest h0 rest2 hp
      apply mergeLoop_nonempty adj fuel
      intro x hx
      rcases List.mem_cons.mp hx with rfl | hx
      · intro hcontra
        exact hne g0 (List.mem_cons_self _ _) (List.append_eq_nil.mp hcontra).1
      · exact hne x (List.mem_cons_of_mem _ (hsub x hx))

theorem repIndex_mem (cfg : GrapherConfig) (feats : List ConsensusFeature) (g : List ℕ)
    (hne : g ≠ []) : repIndex cfg feats g ∈ g := by
  have hhead : g.headD 0 ∈ g := by
    cases g with
    | nil => exact absurd rfl hne
    | cons x t => exact List.mem_cons_self _ _
  unfold repIndex
  by_cases hiso : hasIsotopeEdge cfg feats g = true
  · rw [if_pos hiso]
    unfold baseIndex
    rcases @foldl_choice_mem (fun b i =>
        if (featAt feats i).mz_representative < (featAt feats b).mz_representative
        then i else b)
        (fun b i => by by_cases hc : (featAt feats i).mz_representative <
          (featAt feats b).mz_representative <;> simp [hc]) g (g.headD 0) with h | h
    · rw [h]; exact hhead
    · exact h
  · rw [if_neg hiso]
    unfold maxIntensityIndex
    rcases @foldl_choice_mem (fun b i =>
        if featIntensity (featAt feats b) < featIntensity (featAt feats i) then i else b)
        (fun b i => by by_cases hc : featIntensity (featAt feats b) <
          featIntensity (featAt feats i) <;> simp [hc]) g (g.headD 0) with h | h
    · rw [h]; exact hhead
    · exact h

theorem flatten_singletons : ∀ l : List ℕ, (l.map fun i => [i]).flatten = l
  | [] => rfl
  | x :: t => by
    rw [List.map_cons, List.flatten_cons, flatten_singletons t]
    rfl

theorem groupFeatures_indices (cfg : GrapherConfig) (feats : List ConsensusFeature) :
    ((groupFeatures cfg feats).flatMap fun gr => gr.members.map Prod.fst) =
      (componentsOf cfg feats).flatten := by
  unfold groupFeatures
  generalize componentsOf cfg feats = comps
  induction comps with
  | nil => rfl
  | cons g t ih =>
    rw [List.map_cons, List.flatMap_cons, List.flatten_cons, ih]
    congr 1
    show ((g.map fun i => (i, isoRankOf cfg feats g i)).map Prod.fst) = g
    simp [Function.comp_def]

unseal Rat.add Rat.mul Rat.inv Rat.sub Rat.ofScientific in
/-- C9: the Relationship Grapher partitions the feature indices — the
group members enumerate every feature index exactly once (so each
feature is in exactly one group with one role) and each group's single
representative is one of its members; on the isotope triple it
produces one group with ranks 0/1/2 represented by the monoisotopic
member. -/
theorem grapher_groups_C9 :
    (∀ (cfg : GrapherConfig) (feats : List ConsensusFeature),
      ((groupFeatures cfg feats).flatMap fun gr => gr.members.map Prod.fst).Perm
        (List.range feats.length) ∧
      ∀ gr ∈ groupFeatures cfg feats, gr.representative ∈ gr.members.map Prod.fst) ∧
      groupFeatures gcfgC9 featsC9 = [⟨[(0, some 0), (1, some 1), (2, some 2)], 0⟩] := by
  constructor
  · intro cfg feats
    constructor
    · rw [groupFeatures_indices]
      refine (mergeLoop_flatten _ _ _).trans ?_
      rw [flatten_singletons]
    · intro gr hgr
      obtain ⟨g, hg, rfl⟩ := List.mem_map.mp hgr
      have hne : g ≠ [] := by
        refine mergeLoop_nonempty _ _ _ ?_ g hg
        intro x hx
        obtain ⟨i, _, rfl⟩ := List.mem_map.mp hx
        simp
      have hrep := repIndex_mem cfg feats g hne
      show repIndex cfg feats g ∈ (g.map fun i => (i, isoRankOf cfg feats g i)).map Prod.fst
      simpa [List.map_map, Function.comp_def] using hrep
  · decide

unseal Rat.add Rat.mul Rat.inv Rat.sub Rat.ofScientific in
/-- Witness for C9: the isotope triple's single group has its
representative among its members. -/
theorem grapher_groups_C9_witness :
    (⟨[(0, some 0), (1, some 1), (2, some 2)], 0⟩ : RelationshipGroup).representative ∈
      (⟨[(0, some 0), (1, some 1), (2, some 2)], 0⟩ :
        RelationshipGroup).members.map Prod.fst :=
  (grapher_groups_C9.1 gcfgC9 featsC9).2
    ⟨[(0, some 0), (1, some 1), (2, some 2)], 0⟩ (by decide)

/-- C10: with fewer than 3 co-present samples the correlation is
undetermined: the Grapher assigns no edge (in either direction, hence
no adjacency) and, being a total function, raises no error. -/
theorem corr_guard_C10 (cfg : GrapherConfig) :
    (∀ f g, (sharedPairs f g).length < 3 → edgeLabel cfg f g = none) ∧
    (∀ feats i j, (sharedPairs (featAt feats i) (featAt feats j)).length < 3 →
      (sharedPairs (featAt feats j) (featAt feats i)).length < 3 →
      adjacentB cfg feats i j = false) := by
  have hbase : ∀ f g, (sharedPairs f g).length < 3 → edgeLabel cfg f g = none := by
    intro f g h
    have hppr : pprEdge cfg f g = false := by
      have hnle : ¬ (3 ≤ (sharedPairs f g).length) := Nat.not_le.mpr h
      simp [pprEdge, hnle]
    simp [edgeLabel, hppr]
  refine ⟨hbase, ?_⟩
  intro feats i j h1 h2
  simp [adjacentB, hbase _ _ h1, hbase _ _ h2]

unseal Rat.add Rat.mul Rat.inv Rat.sub Rat.ofScientific in
/-- Witness for C10 at two features sharing only two samples. -/
theorem corr_guard_C10_witness :
    edgeLabel gcfgC9 featC10a featC10b = none ∧
      adjacentB gcfgC9 [featC10a, featC10b] 0 1 = false :=
  ⟨(corr_guard_C10 gcfgC9).1 featC10a featC10b (by decide),
    (corr_guard_C10 gcfgC9).2 [featC10a, featC10b] 0 1 (by decide) (by decide)⟩

end Metabengine
